import Mathlib

/-!
# Verification of the jfswatch change-detection core

Shallow embedding of the jfswatch repository's core data model and
algorithms, together with theorems settling the specification claims.

* `WatchedFS` / `FSDifference` / `WatchedFS.compare` embed
  `src/watched_fs.rs` (the snapshot map is a Rust `HashMap`; we model it
  as an association list in one iteration order, with the `HashMap` key
  uniqueness recorded as a `keysNodup` hypothesis where needed).
* `getCommand` embeds `JFSWatch::get_command` from `src/jfswatch.rs`,
  including the semantics of the Rust regex
  `.?\$(\{(diff|path|mtime)\}|diff|path|mtime)` used with `replace_all`
  and the closure's unknown-substitution-target panic (when the consumed
  preceding character survives `trim_matches`).
* `extendGlobPattern` embeds `ExtendedGlobPatternBuilder`
  (`src/explorers/glob_explorer/extend.rs`); the `unwrap`/`panic!` calls
  are modelled as `Except.error` and the `usize` depth arithmetic uses the
  release profile's wrapping semantics.
* `JFSWatch.new` embeds the constructor validation in `src/jfswatch.rs`.
-/

namespace JFSWatchModel

/-- Model of `std::time::SystemTime` (and of the `chrono` local time used by
`jfswatch.rs`): an abstract instant. Only equality of instants matters for the
diff algorithm, and formatting is modelled by `formatMTime` below. -/
abbrev MTime := Nat

/-- Model of the `chrono` `format(LOCAL_DATE_FORMAT)` rendering of a
timestamp: an injective rendering of the instant as text. The claims never
depend on the concrete shape of the rendered text. -/
def formatMTime (t : MTime) : String := toString t

/-- `FSDifference` from `src/watched_fs.rs`: the result of comparing two
snapshots of the watched filesystem. -/
inductive FSDifference where
  | Unchanged : FSDifference
  | Modified (path : String) (mtime : MTime) : FSDifference
  | New (path : String) (mtime : MTime) : FSDifference
  | Deleted (path : String) : FSDifference
deriving DecidableEq, Repr

/-- `WatchedFS` from `src/watched_fs.rs`: a `HashMap<String, SystemTime>`,
modelled as its entry list in one (arbitrary) iteration order. -/
structure WatchedFS where
  paths : List (String × MTime)
deriving DecidableEq, Repr

/-- The `HashMap` invariant: keys are unique. -/
def keysNodup (l : List (String × MTime)) : Prop := (l.map Prod.fst).Nodup

instance (l : List (String × MTime)) : Decidable (keysNodup l) := by
  unfold keysNodup; infer_instance

/-- Model of `HashMap::remove_entry(path)`: remove the entry whose key is
`p`, returning its mtime and the remaining entries, or `none` when `p` is
absent. -/
def removeEntry (p : String) : List (String × MTime) →
    Option (MTime × List (String × MTime))
  | [] => none
  | (q, t) :: rest =>
    if q = p then some (t, rest)
    else
      match removeEntry p rest with
      | none => none
      | some (t0, rest0) => some (t0, (q, t) :: rest0)

/-- Model of `HashMap` lookup by key (the value recorded for key `p`). -/
def lookupMTime (p : String) : List (String × MTime) → Option MTime
  | [] => none
  | (q, t) :: rest => if q = p then some t else lookupMTime p rest

/-- The loop body of `WatchedFS::compare` (`src/watched_fs.rs` lines 47-73):
scan the current entries, removing each from the previous map; report the
first `Modified`/`New` found; afterwards report a `Deleted` leftover of the
previous map, else `Unchanged`. -/
def compareAux : List (String × MTime) → List (String × MTime) → FSDifference
  | [], prev =>
    match prev with
    | [] => .Unchanged
    | (p, _) :: _ => .Deleted p
  | (p, t) :: rest, prev =>
    match removeEntry p prev with
    | some (t0, prev0) => if t ≠ t0 then .Modified p t else compareAux rest prev0
    | none => .New p t

/-- `WatchedFS::compare(&self, prev_fs)`: compare the current snapshot
`self` against the consumed previous snapshot. -/
def WatchedFS.compare (self prev : WatchedFS) : FSDifference :=
  compareAux self.paths prev.paths

theorem removeEntry_none_iff (p : String) (l : List (String × MTime)) :
    removeEntry p l = none ↔ lookupMTime p l = none := by
  induction l with
  | nil => simp [removeEntry, lookupMTime]
  | cons e rest ih =>
    obtain ⟨q, t⟩ := e
    by_cases h : q = p
    · simp [removeEntry, lookupMTime, h]
    · simp only [removeEntry, lookupMTime, h, if_neg h, ite_false]
      cases hrec : removeEntry p rest with
      | none => simpa [hrec] using ih.mp hrec
      | some v =>
        simp only [hrec] at ih
        constructor
        · intro hcontra; cases hcontra
        · intro hlook
          have := ih.mpr hlook
          cases this

theorem removeEntry_some_lookup {p : String} {l l' : List (String × MTime)}
    {t : MTime} (h : removeEntry p l = some (t, l')) :
    lookupMTime p l = some t := by
  induction l generalizing l' with
  | nil => simp [removeEntry] at h
  | cons e rest ih =>
    obtain ⟨q, s⟩ := e
    by_cases hq : q = p
    · simp only [removeEntry, if_pos hq] at h
      obtain ⟨h1, _⟩ := Prod.mk.injEq .. ▸ (Option.some.injEq _ _ ▸ h)
      simp [lookupMTime, hq, ← h1]
    · simp only [removeEntry, if_neg hq] at h
      cases hrec : removeEntry p rest with
      | none => rw [hrec] at h; cases h
      | some v =>
        obtain ⟨t0, rest0⟩ := v
        rw [hrec] at h
        simp only [Option.some.injEq, Prod.mk.injEq] at h
        simp only [lookupMTime, if_neg hq]
        exact h.1 ▸ @ih rest0 (by rw [hrec, h.1])

theorem lookup_removeEntry_ne {p q : String} {l l' : List (String × MTime)}
    {t : MTime} (h : removeEntry p l = some (t, l')) (hne : q ≠ p) :
    lookupMTime q l' = lookupMTime q l := by
  induction l generalizing l' with
  | nil => simp [removeEntry] at h
  | cons e rest ih =>
    obtain ⟨a, b⟩ := e
    by_cases ha : a = p
    · simp only [removeEntry, if_pos ha] at h
      obtain ⟨_, h2⟩ := Prod.mk.injEq .. ▸ (Option.some.injEq _ _ ▸ h)
      have haq : a ≠ q := fun hc => hne (hc ▸ ha ▸ rfl)
      simp [lookupMTime, ← h2, if_neg haq]
    · simp only [removeEntry, if_neg ha] at h
      cases hrec : removeEntry p rest with
      | none => rw [hrec] at h; cases h
      | some v =>
        obtain ⟨t0, rest0⟩ := v
        rw [hrec] at h
        simp only [Option.some.injEq, Prod.mk.injEq] at h
        rw [← h.2]
        by_cases haq : a = q
        · simp [lookupMTime, haq]
        · simp only [lookupMTime, if_neg haq]
          exact @ih rest0 (by rw [hrec, h.1])

theorem lookup_some_mem {p : String} {t : MTime} {l : List (String × MTime)}
    (h : lookupMTime p l = some t) : p ∈ l.map Prod.fst := by
  induction l with
  | nil => simp [lookupMTime] at h
  | cons e rest ih =>
    obtain ⟨q, s⟩ := e
    by_cases hq : q = p
    · simp [hq]
    · simp only [lookupMTime, if_neg hq] at h
      simp [ih h]

theorem removeEntry_sublist {p : String} {t : MTime}
    {l l' : List (String × MTime)} (h : removeEntry p l = some (t, l')) :
    l'.Sublist l := by
  induction l generalizing l' with
  | nil => simp [removeEntry] at h
  | cons e rest ih =>
    obtain ⟨q, s⟩ := e
    by_cases hq : q = p
    · simp only [removeEntry, if_pos hq] at h
      obtain ⟨_, h2⟩ := Prod.mk.injEq .. ▸ (Option.some.injEq _ _ ▸ h)
      exact h2 ▸ (List.sublist_cons_self _ _)
    · simp only [removeEntry, if_neg hq] at h
      cases hrec : removeEntry p rest with
      | none => rw [hrec] at h; cases h
      | some v =>
        obtain ⟨t0, rest0⟩ := v
        rw [hrec] at h
        simp only [Option.some.injEq, Prod.mk.injEq] at h
        exact h.2 ▸ List.Sublist.cons₂ _ (ih (by rw [hrec, h.1]))

theorem keysNodup_removeEntry {p : String} {l l' : List (String × MTime)}
    {t : MTime} (h : removeEntry p l = some (t, l')) (hnd : keysNodup l) :
    keysNodup l' :=
  ((removeEntry_sublist h).map Prod.fst).nodup hnd

theorem lookup_removeEntry_self {p : String} {l l' : List (String × MTime)}
    {t : MTime} (h : removeEntry p l = some (t, l')) (hnd : keysNodup l) :
    lookupMTime p l' = none := by
  induction l generalizing l' with
  | nil => simp [removeEntry] at h
  | cons e rest ih =>
    obtain ⟨a, b⟩ := e
    have hcons := List.nodup_cons.mp hnd
    by_cases ha : a = p
    · simp only [removeEntry, if_pos ha] at h
      obtain ⟨_, h2⟩ := Prod.mk.injEq .. ▸ (Option.some.injEq _ _ ▸ h)
      rw [← h2]
      cases hl : lookupMTime p rest with
      | none => rfl
      | some s => exact absurd (lookup_some_mem hl) (ha ▸ hcons.1)
    · simp only [removeEntry, if_neg ha] at h
      cases hrec : removeEntry p rest with
      | none => rw [hrec] at h; cases h
      | some v =>
        obtain ⟨t0, rest0⟩ := v
        rw [hrec] at h
        simp only [Option.some.injEq, Prod.mk.injEq] at h
        rw [← h.2]
        simp only [lookupMTime, if_neg ha]
        exact @ih rest0 (by rw [hrec, h.1]) hcons.2

theorem lookup_eq_none_of_not_mem {p : String} {l : List (String × MTime)}
    (h : p ∉ l.map Prod.fst) : lookupMTime p l = none := by
  cases hl : lookupMTime p l with
  | none => rfl
  | some s => exact absurd (lookup_some_mem hl) h

theorem compareAux_unchanged_of_lookup_eq
    (cur : List (String × MTime)) :
    ∀ prev : List (String × MTime), keysNodup cur → keysNodup prev →
    (∀ p, lookupMTime p cur = lookupMTime p prev) →
    compareAux cur prev = .Unchanged := by
  induction cur with
  | nil =>
    intro prev _ _ heq
    cases prev with
    | nil => rfl
    | cons e rest =>
      obtain ⟨q, s⟩ := e
      have := heq q
      simp [lookupMTime] at this
  | cons e rest ih =>
    obtain ⟨p, t⟩ := e
    intro prev hnd1 hnd2 heq
    have hcons := List.nodup_cons.mp hnd1
    have hp : lookupMTime p prev = some t := by
      have := heq p
      simpa [lookupMTime] using this.symm
    cases hrm : removeEntry p prev with
    | none => exact absurd ((removeEntry_none_iff p prev).mp hrm) (by simp [hp])
    | some v =>
      obtain ⟨t0, prev'⟩ := v
      have ht0 : t0 = t := by
        have := removeEntry_some_lookup hrm
        rw [hp] at this
        exact (Option.some.injEq _ _ ▸ this).symm
      simp only [compareAux, hrm, ht0, if_neg (by simp : ¬(t ≠ t))]
      refine ih prev' hcons.2 (keysNodup_removeEntry hrm hnd2) ?_
      intro q
      by_cases hq : q = p
      · subst hq
        rw [lookup_eq_none_of_not_mem hcons.1, lookup_removeEntry_self hrm hnd2]
      · have := heq q
        simp only [lookupMTime, if_neg (fun hc : p = q => hq hc.symm)] at this
        rw [this, lookup_removeEntry_ne hrm hq]

theorem compareAux_lookup_eq_of_unchanged
    (cur : List (String × MTime)) :
    ∀ prev : List (String × MTime),
    compareAux cur prev = .Unchanged →
    ∀ p, lookupMTime p cur = lookupMTime p prev := by
  induction cur with
  | nil =>
    intro prev h p
    cases prev with
    | nil => rfl
    | cons e rest => obtain ⟨q, s⟩ := e; simp [compareAux] at h
  | cons e rest ih =>
    obtain ⟨p, t⟩ := e
    intro prev h q
    cases hrm : removeEntry p prev with
    | none => simp [compareAux, hrm] at h
    | some v =>
      obtain ⟨t0, prev'⟩ := v
      simp only [compareAux, hrm] at h
      by_cases ht : t ≠ t0
      · rw [if_pos ht] at h; cases h
      · rw [if_neg ht] at h
        push_neg at ht
        subst ht
        by_cases hq : q = p
        · subst hq
          simp only [lookupMTime, if_pos rfl]
          exact (removeEntry_some_lookup hrm).symm
        · simp only [lookupMTime, if_neg (fun hc : p = q => hq hc.symm)]
          rw [ih prev' h q, lookup_removeEntry_ne hrm hq]

/-- C1: For single-path snapshots, `WatchedFS.compare current previous`
returns the `FSDifference` variant matching the change: `Modified p t1` when
the shared path's mtime changed from `t0` to `t1`, `New p t` when the path
appears only in the current snapshot, and `Deleted p` (no mtime carried)
when the path appears only in the previous snapshot. -/
theorem compare_singleton_cases (p : String) (t0 t1 t : MTime) (h : t1 ≠ t0) :
    (WatchedFS.mk [(p, t1)]).compare (WatchedFS.mk [(p, t0)]) =
      .Modified p t1
    ∧ (WatchedFS.mk [(p, t)]).compare (WatchedFS.mk []) = .New p t
    ∧ (WatchedFS.mk []).compare (WatchedFS.mk [(p, t)]) = .Deleted p := by
  refine ⟨?_, ?_, ?_⟩
  · simp [WatchedFS.compare, compareAux, removeEntry, h]
  · simp [WatchedFS.compare, compareAux, removeEntry]
  · simp [WatchedFS.compare, compareAux]

theorem compare_singleton_cases_witness :
    (WatchedFS.mk [("p", 1)]).compare (WatchedFS.mk [("p", 0)]) =
      .Modified "p" 1
    ∧ (WatchedFS.mk [("p", 5)]).compare (WatchedFS.mk []) = .New "p" 5
    ∧ (WatchedFS.mk []).compare (WatchedFS.mk [("p", 5)]) = .Deleted "p" :=
  compare_singleton_cases "p" 0 1 5 (by decide)

/-- C2: comparing any snapshot against a structurally identical snapshot
(same keys with unique keys as in a `HashMap`, same mtimes — i.e. equal
lookups) always returns `Unchanged`, in any iteration order of either
snapshot. -/
theorem compare_self_unchanged (cur prev : WatchedFS)
    (h1 : keysNodup cur.paths) (h2 : keysNodup prev.paths)
    (heq : ∀ p, lookupMTime p cur.paths = lookupMTime p prev.paths) :
    cur.compare prev = .Unchanged :=
  compareAux_unchanged_of_lookup_eq cur.paths prev.paths h1 h2 heq

theorem compare_self_unchanged_witness :
    (WatchedFS.mk [("a", 3), ("b", 4)]).compare
      (WatchedFS.mk [("a", 3), ("b", 4)]) = .Unchanged :=
  compare_self_unchanged _ _ (by decide) (by decide) (fun _ => rfl)

/-- C3: whenever `WatchedFS.compare current previous` returns `Unchanged`,
the two snapshots are equal as maps: for every path, the looked-up mtime in
the current snapshot equals the one in the previous snapshot (so same key
set and equal mtimes on every shared key). -/
theorem compare_unchanged_implies_lookup_eq (cur prev : WatchedFS)
    (h : cur.compare prev = .Unchanged) :
    ∀ p, lookupMTime p cur.paths = lookupMTime p prev.paths :=
  compareAux_lookup_eq_of_unchanged cur.paths prev.paths h

theorem compare_unchanged_implies_lookup_eq_witness :
    lookupMTime "a" [("a", 1), ("b", 2)] = lookupMTime "a" [("b", 2), ("a", 1)] :=
  compare_unchanged_implies_lookup_eq
    (WatchedFS.mk [("a", 1), ("b", 2)]) (WatchedFS.mk [("b", 2), ("a", 1)])
    (by decide) "a"

/-! ## Command template substitution (`JFSWatch::get_command`, src/jfswatch.rs)

`get_command` joins the command tokens with spaces and applies
`Regex::replace_all` with the pattern
`.?\$(\{(diff|path|mtime)\}|diff|path|mtime)`.  We embed the regex
engine's leftmost-first scan directly: at each position the optional `.?`
prefers to consume one (non-newline) character; a match is replaced by the
closure of `get_command` (escape when the consumed character is a
backslash, otherwise first char followed by the substitution; for a
`Deleted` difference an `mtime` placeholder is reproduced verbatim via
`caps[0][1..]`). -/

/-- The three substitution variable names recognised by the regex. -/
inductive VarName where
  | diff : VarName
  | path : VarName
  | mtime : VarName
deriving DecidableEq, Repr

/-- The variable name as written in the template. -/
def varChars : VarName → List Char
  | .diff => "diff".data
  | .path => "path".data
  | .mtime => "mtime".data

/-- The text of a placeholder body after the `$`: `{name}` when braced,
`name` otherwise. -/
def bodyChars (braced : Bool) (v : VarName) : List Char :=
  if braced then '{' :: varChars v ++ "\x7d".data else varChars v

/-- Drop a literal character sequence from the front of a string, if present. -/
def dropLit : List Char → List Char → Option (List Char)
  | [], s => some s
  | _ :: _, [] => none
  | c :: cs, d :: ds => if d = c then dropLit cs ds else none

/-- Match the regex group `\{(diff|path|mtime)\}|diff|path|mtime` at the
front of `s`, in the regex's alternation order, returning whether the match
was braced, the variable, and the remaining input. -/
def tryBody (s : List Char) : Option (Bool × VarName × List Char) :=
  match dropLit (bodyChars true .diff) s with
  | some r => some (true, .diff, r)
  | none =>
  match dropLit (bodyChars true .path) s with
  | some r => some (true, .path, r)
  | none =>
  match dropLit (bodyChars true .mtime) s with
  | some r => some (true, .mtime, r)
  | none =>
  match dropLit (bodyChars false .diff) s with
  | some r => some (false, .diff, r)
  | none =>
  match dropLit (bodyChars false .path) s with
  | some r => some (false, .path, r)
  | none =>
  match dropLit (bodyChars false .mtime) s with
  | some r => some (false, .mtime, r)
  | none => none

/-- Match `\$(\{(diff|path|mtime)\}|diff|path|mtime)` at the front of `s`. -/
def tryDollarVar (s : List Char) : Option (Bool × VarName × List Char) :=
  match s with
  | c :: rest => if c = '$' then tryBody rest else none
  | [] => none

theorem dropLit_length {pat s r : List Char} (h : dropLit pat s = some r) :
    r.length + pat.length = s.length := by
  induction pat generalizing s with
  | nil => simp [dropLit] at h; simp [h]
  | cons c cs ih =>
    cases s with
    | nil => simp [dropLit] at h
    | cons d ds =>
      simp only [dropLit] at h
      split at h
      · have := ih h
        simp only [List.length_cons]
        omega
      · cases h

theorem bodyChars_pos (b : Bool) (v : VarName) : 0 < (bodyChars b v).length := by
  cases b <;> cases v <;> simp [bodyChars, varChars]

theorem dropLit_lt {pat s r : List Char} (hpos : 0 < pat.length)
    (h : dropLit pat s = some r) : r.length < s.length := by
  have := dropLit_length h
  omega

theorem tryBody_length {s r : List Char} {b : Bool} {v : VarName}
    (h : tryBody s = some (b, v, r)) : r.length < s.length := by
  unfold tryBody at h
  repeat' split at h
  all_goals first
    | (rename_i r1 heq
       simp only [Option.some.injEq, Prod.mk.injEq] at h
       obtain ⟨-, -, hr⟩ := h
       subst hr
       exact dropLit_lt (bodyChars_pos _ _) heq)
    | exact Option.noConfusion h

theorem tryDollarVar_length {s r : List Char} {b : Bool} {v : VarName}
    (h : tryDollarVar s = some (b, v, r)) : r.length < s.length := by
  unfold tryDollarVar at h
  split at h
  · split at h
    · have := tryBody_length h
      simp only [List.length_cons]
      omega
    · cases h
  · cases h

theorem dropLit_append {pat s r : List Char} (h : dropLit pat s = some r) :
    s = pat ++ r := by
  induction pat generalizing s with
  | nil => simpa [dropLit] using (by simpa [dropLit] using h : s = r)
  | cons c cs ih =>
    cases s with
    | nil => simp [dropLit] at h
    | cons d ds =>
      simp only [dropLit] at h
      split at h
      · rename_i hd
        simp [hd, ih h]
      · cases h

theorem tryBody_decomp {s r : List Char} {b : Bool} {v : VarName}
    (h : tryBody s = some (b, v, r)) : s = bodyChars b v ++ r := by
  unfold tryBody at h
  repeat' split at h
  all_goals first
    | (rename_i r1 heq
       simp only [Option.some.injEq, Prod.mk.injEq] at h
       obtain ⟨hb, hv, hr⟩ := h
       subst hr
       exact hb ▸ hv ▸ dropLit_append heq)
    | exact Option.noConfusion h

theorem tryDollarVar_decomp {s r : List Char} {b : Bool} {v : VarName}
    (h : tryDollarVar s = some (b, v, r)) : s = '$' :: bodyChars b v ++ r := by
  unfold tryDollarVar at h
  split at h
  · split at h
    · rename_i c rest hc
      simp [hc, tryBody_decomp h]
    · cases h
  · cases h

/-- `"modified" | "new" | "deleted"` by variant (`Unchanged` is
`unreachable!()` in the source; `get_command` returns `None` before the
closure can see it). -/
def diffName : FSDifference → String
  | .Modified _ _ => "modified"
  | .New _ _ => "new"
  | .Deleted _ => "deleted"
  | .Unchanged => ""

/-- The changed path of a difference (`Unchanged` is `unreachable!()`). -/
def diffPath : FSDifference → String
  | .Modified p _ => p
  | .New p _ => p
  | .Deleted p => p
  | .Unchanged => ""

/-- The substitution text for a variable, used whenever the source closure
does not take the `Deleted`-`mtime` verbatim branch. -/
def replText (d : FSDifference) : VarName → List Char
  | .diff => (diffName d).data
  | .path => (diffPath d).data
  | .mtime =>
    match d with
    | .Modified _ t => (formatMTime t).data
    | .New _ t => (formatMTime t).data
    | _ => []

/-- What follows the consumed first character of a match: the substitution
text, except that a `Deleted` difference reproduces an `mtime` placeholder
verbatim (`caps[0][1..]`). -/
def substConsumed (d : FSDifference) (b : Bool) (v : VarName) : List Char :=
  match v, d with
  | .mtime, .Deleted _ => '$' :: bodyChars b .mtime
  | _, _ => replText d v

/-- What follows the leading `$` of a match whose `.?` consumed nothing. -/
def substBare (d : FSDifference) (b : Bool) (v : VarName) : List Char :=
  match v, d with
  | .mtime, .Deleted _ => bodyChars b .mtime
  | _, _ => replText d v

/-- The character set the source closure trims from both ends of the whole
match: `trim_matches(['{', '}', ' ', '$'])`. -/
def isTrimChar (c : Char) : Bool :=
  c == '{' || c == '}' || c == ' ' || c == '$'

/-- The `replace_all` scan of `get_command`: leftmost-first matching of
`.?\$(\{(diff|path|mtime)\}|diff|path|mtime)`, with the source closure's
replacement: backslash escape; normal substitution when the `.?` consumed
nothing or a character that `trim_matches` strips (the trim set above);
`Deleted`-`mtime` verbatim.  When the consumed character is outside the
trim set (and not a backslash), the trimmed match still carries it, no arm
of the source's `match` applies, and the closure hits
`panic!("Unknown substitution target...")` — modelled as `none`.  The
second argument counts characters of an already-emitted match still to be
stepped over, so the recursion is structural. -/
def scanGo (d : FSDifference) : List Char → Nat → Option (List Char)
  | [], _ => some []
  | _ :: rest, skip + 1 => scanGo d rest skip
  | c :: rest, 0 =>
    match tryDollarVar rest with
    | some (b, v, _) =>
      if c ≠ '\n' then
        if c = '\\' then
          (scanGo d rest ((bodyChars b v).length + 1)).map
            (('$' :: bodyChars b v) ++ ·)
        else if isTrimChar c then
          (scanGo d rest ((bodyChars b v).length + 1)).map
            ((c :: substConsumed d b v) ++ ·)
        else none
      else (scanGo d rest 0).map (c :: ·)
    | none =>
      match tryBody rest with
      | some (b, v, _) =>
        if c = '$' then
          (scanGo d rest (bodyChars b v).length).map
            (('$' :: substBare d b v) ++ ·)
        else (scanGo d rest 0).map (c :: ·)
      | none => (scanGo d rest 0).map (c :: ·)

/-- The full `replace_all` scan, starting outside any match; `none` is the
closure's unknown-substitution-target panic. -/
def scan (d : FSDifference) (s : List Char) : Option (List Char) :=
  scanGo d s 0

/-- `cmd.join(" ")`. -/
def joinCmd (cmd : List String) : String := " ".intercalate cmd

/-- The observable outcome of `JFSWatch::get_command`: `None`, `Some` of a
built command, or the panic raised inside the `replace_all` closure. -/
inductive GetCommandResult where
  | noCommand : GetCommandResult
  | built (s : String) : GetCommandResult
  | panicked : GetCommandResult
deriving DecidableEq, Repr

/-- `JFSWatch::get_command` (src/jfswatch.rs lines 151-209): `None` for
`Unchanged`, otherwise the joined command tokens with all placeholder
matches replaced — or the closure's panic propagating out. -/
def getCommand (cmd : List String) (d : FSDifference) : GetCommandResult :=
  if d = .Unchanged then .noCommand
  else
    match scan d (joinCmd cmd).data with
    | some out => .built (String.mk out)
    | none => .panicked

/-- The substitution procedure in the specification's words: scan left to
right; a placeholder immediately preceded by a backslash is left as literal
text with the backslash stripped; an (unescaped) placeholder is replaced by
its substitution text — verbatim for `mtime` under `Deleted`; every other
character is copied. -/
def specGo (d : FSDifference) : List Char → Nat → List Char
  | [], _ => []
  | _ :: rest, skip + 1 => specGo d rest skip
  | c :: rest, 0 =>
    if c = '\\' then
      match tryDollarVar rest with
      | some (b, v, _) => '$' :: bodyChars b v ++ specGo d rest ((bodyChars b v).length + 1)
      | none => c :: specGo d rest 0
    else if c = '$' then
      match tryBody rest with
      | some (b, v, _) => substConsumed d b v ++ specGo d rest (bodyChars b v).length
      | none => c :: specGo d rest 0
    else c :: specGo d rest 0

/-- The specification-side substitution of a whole template. -/
def specSubst (d : FSDifference) (s : List Char) : List Char := specGo d s 0

/-- No unescaped placeholder occurs at a position where the regex's `.?`
has no preceding character available to consume (string start, right after
a newline, or right after a previous match). -/
def nbvGo : List Char → Nat → Bool
  | [], _ => true
  | _ :: rest, skip + 1 => nbvGo rest skip
  | c :: rest, 0 =>
    match tryDollarVar rest with
    | some (b, v, _) =>
      if c ≠ '\n' then nbvGo rest ((bodyChars b v).length + 1) else nbvGo rest 0
    | none =>
      match tryBody rest with
      | some _ => if c = '$' then false else nbvGo rest 0
      | none => nbvGo rest 0

/-- Whole-template check, starting outside any match. -/
def noBareVar (s : List Char) : Bool := nbvGo s 0

/-- Every placeholder match is one the closure digests without the
unknown-substitution-target panic: its consumed character, if any, is a
backslash or lies in the trim set. -/
def npGo : List Char → Nat → Bool
  | [], _ => true
  | _ :: rest, skip + 1 => npGo rest skip
  | c :: rest, 0 =>
    match tryDollarVar rest with
    | some (b, v, _) =>
      if c ≠ '\n' then
        if c = '\\' then npGo rest ((bodyChars b v).length + 1)
        else if isTrimChar c then npGo rest ((bodyChars b v).length + 1)
        else false
      else npGo rest 0
    | none =>
      match tryBody rest with
      | some (b, v, _) =>
        if c = '$' then npGo rest (bodyChars b v).length else npGo rest 0
      | none => npGo rest 0

/-- Whole-template panic freedom, starting outside any match. -/
def noPanic (s : List Char) : Bool := npGo s 0

theorem tryBody_bodyChars (b : Bool) (v : VarName) (post : List Char) :
    tryBody (bodyChars b v ++ post) = some (b, v, post) := by
  cases b <;> cases v <;> rfl

theorem tryDollarVar_cons_bodyChars (b : Bool) (v : VarName) (post : List Char) :
    tryDollarVar ('$' :: (bodyChars b v ++ post)) = some (b, v, post) := by
  simp [tryDollarVar, tryBody_bodyChars]

theorem tryDollarVar_bodyChars_none (b : Bool) (v : VarName) (post : List Char) :
    tryDollarVar (bodyChars b v ++ post) = none := by
  cases b <;> cases v <;> rfl

theorem tryBody_dollar_none (xs : List Char) : tryBody ('$' :: xs) = none := by
  rfl

theorem isTrimChar_ne {c : Char} (h : isTrimChar c = true) :
    c ≠ '\n' ∧ c ≠ '\\' := by
  simp only [isTrimChar, Bool.or_eq_true, beq_iff_eq] at h
  rcases h with ((h | h) | h) | h <;> subst h <;> exact ⟨by decide, by decide⟩

theorem scanGo_skip (d : FSDifference) (xs post : List Char) :
    scanGo d (xs ++ post) xs.length = scanGo d post 0 := by
  induction xs with
  | nil => rfl
  | cons x xs ih => simpa [scanGo] using ih

theorem specGo_skip (d : FSDifference) (xs post : List Char) :
    specGo d (xs ++ post) xs.length = specGo d post 0 := by
  induction xs with
  | nil => rfl
  | cons x xs ih => simpa [specGo] using ih

theorem nbvGo_skip (xs post : List Char) :
    nbvGo (xs ++ post) xs.length = nbvGo post 0 := by
  induction xs with
  | nil => rfl
  | cons x xs ih => simpa [nbvGo] using ih

theorem npGo_skip (xs post : List Char) :
    npGo (xs ++ post) xs.length = npGo post 0 := by
  induction xs with
  | nil => rfl
  | cons x xs ih => simpa [npGo] using ih

theorem scanGo_rest_eq {rest after : List Char} {b : Bool} {v : VarName}
    (d : FSDifference) (hdec : rest = '$' :: bodyChars b v ++ after) :
    scanGo d rest ((bodyChars b v).length + 1) = scanGo d after 0 := by
  calc scanGo d rest ((bodyChars b v).length + 1)
      = scanGo d (('$' :: bodyChars b v) ++ after) ('$' :: bodyChars b v).length := by
        rw [← hdec]; rfl
    _ = scanGo d after 0 := scanGo_skip d _ _

theorem scanGo_rest_eq_body {rest after : List Char} {b : Bool} {v : VarName}
    (d : FSDifference) (hdec : rest = bodyChars b v ++ after) :
    scanGo d rest (bodyChars b v).length = scanGo d after 0 := by
  calc scanGo d rest (bodyChars b v).length
      = scanGo d (bodyChars b v ++ after) (bodyChars b v).length := by rw [← hdec]
    _ = scanGo d after 0 := scanGo_skip d _ _

theorem scanGo_step_escape {rest after : List Char} {b : Bool} {v : VarName}
    (d : FSDifference) (hm : tryDollarVar rest = some (b, v, after)) :
    scanGo d ('\\' :: rest) 0
      = (scanGo d after 0).map (('$' :: bodyChars b v) ++ ·) := by
  have hdec := tryDollarVar_decomp hm
  simp only [scanGo, hm, if_pos (by decide : ('\\' : Char) ≠ '\n'),
    eq_self_iff_true, if_true]
  rw [scanGo_rest_eq d hdec]

theorem scanGo_step_trim {rest after : List Char} {b : Bool} {v : VarName}
    (d : FSDifference) (hm : tryDollarVar rest = some (b, v, after))
    {c : Char} (hc : isTrimChar c = true) :
    scanGo d (c :: rest) 0
      = (scanGo d after 0).map ((c :: substConsumed d b v) ++ ·) := by
  have hdec := tryDollarVar_decomp hm
  obtain ⟨hn, hb⟩ := isTrimChar_ne hc
  simp only [scanGo, hm, if_pos hn, if_neg hb, if_pos hc]
  rw [scanGo_rest_eq d hdec]

theorem scanGo_step_panic {rest after : List Char} {b : Bool} {v : VarName}
    (d : FSDifference) (hm : tryDollarVar rest = some (b, v, after))
    {c : Char} (hn : c ≠ '\n') (hb : c ≠ '\\') (hc : isTrimChar c = false) :
    scanGo d (c :: rest) 0 = none := by
  simp only [scanGo, hm, if_pos hn, if_neg hb, hc]
  rfl

theorem scanGo_step_bare {rest after : List Char} {b : Bool} {v : VarName}
    (d : FSDifference) (hm : tryBody rest = some (b, v, after)) :
    scanGo d ('$' :: rest) 0
      = (scanGo d after 0).map (('$' :: substBare d b v) ++ ·) := by
  have hdec := tryBody_decomp hm
  have hnone : tryDollarVar rest = none := by
    rw [hdec]; exact tryDollarVar_bodyChars_none b v after
  simp only [scanGo, hnone, hm, eq_self_iff_true, if_true]
  rw [scanGo_rest_eq_body d hdec]

theorem specGo_step_escape {rest after : List Char} {b : Bool} {v : VarName}
    (d : FSDifference) (hm : tryDollarVar rest = some (b, v, after)) :
    specGo d ('\\' :: rest) 0 = '$' :: bodyChars b v ++ specGo d after 0 := by
  have hdec := tryDollarVar_decomp hm
  simp only [specGo, hm, eq_self_iff_true, if_true, List.cons_append,
    List.cons.injEq, true_and, List.append_cancel_left_eq]
  calc specGo d rest ((bodyChars b v).length + 1)
      = specGo d (('$' :: bodyChars b v) ++ after) ('$' :: bodyChars b v).length := by
        rw [← hdec]; rfl
    _ = specGo d after 0 := specGo_skip d _ _

theorem specGo_step_subst {rest after : List Char} {b : Bool} {v : VarName}
    (d : FSDifference) (hm : tryBody rest = some (b, v, after)) :
    specGo d ('$' :: rest) 0 = substConsumed d b v ++ specGo d after 0 := by
  have hdec := tryBody_decomp hm
  simp only [specGo, hm, if_neg (by decide : ¬('$' : Char) = '\\'),
    eq_self_iff_true, if_true, List.append_cancel_left_eq]
  calc specGo d rest (bodyChars b v).length
      = specGo d (bodyChars b v ++ after) (bodyChars b v).length := by rw [← hdec]
    _ = specGo d after 0 := specGo_skip d _ _

theorem nbvGo_step_consumed {rest after : List Char} {b : Bool} {v : VarName}
    (hm : tryDollarVar rest = some (b, v, after)) {c : Char} (hn : c ≠ '\n') :
    nbvGo (c :: rest) 0 = nbvGo after 0 := by
  have hdec := tryDollarVar_decomp hm
  simp only [nbvGo, hm, if_pos hn]
  calc nbvGo rest ((bodyChars b v).length + 1)
      = nbvGo (('$' :: bodyChars b v) ++ after) ('$' :: bodyChars b v).length := by
        rw [← hdec]; rfl
    _ = nbvGo after 0 := nbvGo_skip _ _

theorem npGo_rest_eq {rest after : List Char} {b : Bool} {v : VarName}
    (hdec : rest = '$' :: bodyChars b v ++ after) :
    npGo rest ((bodyChars b v).length + 1) = npGo after 0 := by
  calc npGo rest ((bodyChars b v).length + 1)
      = npGo (('$' :: bodyChars b v) ++ after) ('$' :: bodyChars b v).length := by
        rw [← hdec]; rfl
    _ = npGo after 0 := npGo_skip _ _

/-- A panic-free template scans to a built output (the closure never hits
its panic arm), for every difference. -/
theorem scanGo_isSome_of_npGo (d : FSDifference) :
    ∀ (s : List Char) (skip : Nat), npGo s skip = true →
      (scanGo d s skip).isSome = true := by
  intro s
  induction s with
  | nil => intro skip _; rfl
  | cons c rest ih =>
    intro skip hnp
    cases skip with
    | succ k => exact ih k (by simpa [npGo] using hnp)
    | zero =>
      cases h1 : tryDollarVar rest with
      | some bva =>
        obtain ⟨b, v, after⟩ := bva
        by_cases hn : c = '\n'
        · subst hn
          have := ih 0 (by simpa [npGo, h1] using hnp)
          simp [scanGo, h1, this]
        · by_cases hb : c = '\\'
          · subst hb
            have := ih ((bodyChars b v).length + 1)
              (by simpa [npGo, h1] using hnp)
            simp [scanGo, h1, this]
          · cases hc : isTrimChar c with
            | false =>
              exfalso
              simp [npGo, h1, hn, hb, hc] at hnp
            | true =>
              have := ih ((bodyChars b v).length + 1)
                (by simpa [npGo, h1, hn, hb, hc] using hnp)
              simp [scanGo, h1, hn, hb, hc, this]
      | none =>
        cases h2 : tryBody rest with
        | some bva =>
          obtain ⟨b, v, after⟩ := bva
          by_cases hd : c = '$'
          · subst hd
            have := ih (bodyChars b v).length
              (by simpa [npGo, h1, h2] using hnp)
            simp [scanGo, h1, h2, this]
          · have := ih 0 (by simpa [npGo, h1, h2, hd] using hnp)
            simp [scanGo, h1, h2, hd, this]
        | none =>
          have := ih 0 (by simpa [npGo, h1, h2] using hnp)
          simp [scanGo, h1, h2, this]

/-- The equivalence of the regex scan and the specification-side
substitution, for templates in which no unescaped placeholder sits where
the regex's `.?` has nothing to consume and none makes the closure panic. -/
theorem scanGo_eq_specGo (d : FSDifference) :
    ∀ n (s : List Char), s.length ≤ n → nbvGo s 0 = true → npGo s 0 = true →
      scanGo d s 0 = some (specGo d s 0) := by
  intro n
  induction n with
  | zero =>
    intro s hs _ _
    rw [List.length_eq_zero.mp (Nat.le_zero.mp hs)]
    rfl
  | succ n ih =>
    intro s hs hnb hnp
    cases s with
    | nil => rfl
    | cons c rest =>
      simp only [List.length_cons, Nat.succ_le_succ_iff] at hs
      cases h1 : tryDollarVar rest with
      | some bva =>
        obtain ⟨b, v, after⟩ := bva
        have hafter : after.length ≤ n :=
          le_of_lt (lt_of_lt_of_le (tryDollarVar_length h1) hs)
        have hdec := tryDollarVar_decomp h1
        by_cases hc : c = '\n'
        · subst hc
          have hnb' : nbvGo rest 0 = true := by
            simpa [nbvGo, h1] using hnb
          have hnp' : npGo rest 0 = true := by
            simpa [npGo, h1] using hnp
          have hrest := ih rest hs hnb' hnp'
          have hscan : scanGo d ('\n' :: rest) 0
              = (scanGo d rest 0).map ((['\n'] : List Char) ++ ·) := by
            simp [scanGo, h1]
          have hspec : specGo d ('\n' :: rest) 0 = '\n' :: specGo d rest 0 := by
            simp [specGo]
          rw [hscan, hspec, hrest]
          rfl
        · have hnb' : nbvGo after 0 = true := by
            rw [← nbvGo_step_consumed h1 hc]; exact hnb
          by_cases hbs : c = '\\'
          · subst hbs
            have hnp' : npGo after 0 = true := by
              rw [← npGo_rest_eq hdec]
              simpa [npGo, h1] using hnp
            have hih := ih after hafter hnb' hnp'
            rw [scanGo_step_escape d h1, hih, specGo_step_escape d h1]
            rfl
          · cases htc : isTrimChar c with
            | false =>
              exfalso
              simp [npGo, h1, hc, hbs, htc] at hnp
            | true =>
              have hnp' : npGo after 0 = true := by
                rw [← npGo_rest_eq hdec]
                simpa [npGo, h1, hc, hbs, htc] using hnp
              have hih := ih after hafter hnb' hnp'
              rw [scanGo_step_trim d h1 htc, hih]
              by_cases hdv : c = '$'
              · subst hdv
                have hbody : tryBody rest = none := by
                  rw [hdec]; exact tryBody_dollar_none _
                have hspec : specGo d ('$' :: rest) 0 = '$' :: specGo d rest 0 := by
                  simp [specGo, hbody]
                have hrest : specGo d rest 0
                    = substConsumed d b v ++ specGo d after 0 := by
                  rw [hdec]
                  exact specGo_step_subst d (tryBody_bodyChars b v after)
                rw [hspec, hrest]
                rfl
              · have hspec : specGo d (c :: rest) 0 = c :: specGo d rest 0 := by
                  simp [specGo, if_neg hbs, if_neg hdv]
                have hrest : specGo d rest 0
                    = substConsumed d b v ++ specGo d after 0 := by
                  rw [hdec]
                  exact specGo_step_subst d (tryBody_bodyChars b v after)
                rw [hspec, hrest]
                rfl
      | none =>
        cases h2 : tryBody rest with
        | some bva =>
          obtain ⟨b, v, after⟩ := bva
          by_cases hdv : c = '$'
          · exfalso
            subst hdv
            simp [nbvGo, h1, h2] at hnb
          · have hnb' : nbvGo rest 0 = true := by
              simpa [nbvGo, h1, h2, hdv] using hnb
            have hnp' : npGo rest 0 = true := by
              simpa [npGo, h1, h2, hdv] using hnp
            have hih := ih rest hs hnb' hnp'
            have hscan : scanGo d (c :: rest) 0
                = (scanGo d rest 0).map (([c] : List Char) ++ ·) := by
              simp [scanGo, h1, h2, hdv]
            have hspec : specGo d (c :: rest) 0 = c :: specGo d rest 0 := by
              by_cases hbs : c = '\\'
              · subst hbs
                simp [specGo, h1]
              · simp only [specGo, if_neg hbs, if_neg hdv]
            rw [hscan, hspec, hih]
            rfl
        | none =>
          have hnb' : nbvGo rest 0 = true := by
            simpa [nbvGo, h1, h2] using hnb
          have hnp' : npGo rest 0 = true := by
            simpa [npGo, h1, h2] using hnp
          have hih := ih rest hs hnb' hnp'
          have hscan : scanGo d (c :: rest) 0
              = (scanGo d rest 0).map (([c] : List Char) ++ ·) := by
            simp [scanGo, h1, h2]
          have hspec : specGo d (c :: rest) 0 = c :: specGo d rest 0 := by
            by_cases hbs : c = '\\'
            · subst hbs
              simp [specGo, h1]
            · by_cases hdv : c = '$'
              · subst hdv
                simp [specGo, h2]
              · simp only [specGo, if_neg hbs, if_neg hdv]
          rw [hscan, hspec, hih]
          rfl

/-- C4 (amended): for every non-`Unchanged` difference, `get_command`
builds the command from the joined tokens by substituting every unescaped
`$diff`/`${diff}`, `$path`/`${path}`, `$mtime`/`${mtime}` (the latter only
for `New`/`Modified`) as the specification describes — provided every
unescaped placeholder is immediately preceded by a character of the trim
set `{'{', '}', ' ', '$'}` (`noPanic`) and none sits at the very start of
the joined string, directly after a newline, or directly after a previous
placeholder match (`noBareVar`).  In the bare positions the regex's `.?`
has no character to consume and the variable is substituted with a leading
`$` retained; a placeholder preceded by any other character survives the
closure's `trim_matches` and `get_command` panics. -/
theorem getCommand_eq_specSubst (cmd : List String) (d : FSDifference)
    (hne : d ≠ .Unchanged)
    (hnb : noBareVar (joinCmd cmd).data = true)
    (hnp : noPanic (joinCmd cmd).data = true) :
    getCommand cmd d = .built (String.mk (specSubst d (joinCmd cmd).data)) := by
  unfold getCommand
  rw [if_neg hne]
  rw [show scan d (joinCmd cmd).data
      = some (specSubst d (joinCmd cmd).data) from
    scanGo_eq_specGo d (joinCmd cmd).data.length _ le_rfl hnb hnp]

theorem getCommand_eq_specSubst_witness :
    getCommand ["echo", "$diff", "$path was", "created at $mtime"]
        (.New "mock/path" 123)
      = .built "echo new mock/path was created at 123" :=
  (getCommand_eq_specSubst ["echo", "$diff", "$path was", "created at $mtime"]
    (.New "mock/path" 123) (by decide) (by decide) (by decide)).trans (by decide)

/-- C4 counterexample: the claim's substitution fails in two ways on the
code.  A bare `$diff` at the start of the joined command keeps its `$`
(the `.?` consumed nothing), and a `$diff` preceded by an ordinary
character makes `get_command` panic in the closure's
unknown-substitution-target arm (`trim_matches` leaves `a$diff`). -/
theorem getCommand_substitution_counterexample :
    getCommand ["$diff"] (.New "mock/path" 7) = .built "$new"
    ∧ getCommand ["$diff"] (.New "mock/path" 7) ≠ .built "new"
    ∧ getCommand ["a$diff"] (.New "mock/path" 7) = .panicked := by
  refine ⟨by decide, by decide, by decide⟩

/-- C5: a placeholder immediately preceded by a backslash is never
substituted: whenever the scan is at such a backslash, the placeholder is
emitted as literal text with the backslash stripped and scanning resumes
after it (any outcome of the remaining template, built or panicked,
propagating unchanged); in particular the template
`"echo $path \$path \${path} ${path}"` with any difference whose path is
`"mock/path"` builds `"echo mock/path $path ${path} mock/path"`. -/
theorem escaped_placeholder_not_substituted (d : FSDifference)
    (hne : d ≠ .Unchanged) :
    (∀ (b : Bool) (v : VarName) (post : List Char),
      scan d ('\\' :: '$' :: bodyChars b v ++ post)
        = (scan d post).map (('$' :: bodyChars b v) ++ ·))
    ∧ (diffPath d = "mock/path" →
      getCommand ["echo $path \\$path \\${path} ${path}"] d
        = .built "echo mock/path $path ${path} mock/path") := by
  constructor
  · intro b v post
    simp only [scan, List.cons_append]
    rw [scanGo_step_escape d (tryDollarVar_cons_bodyChars b v post)]
    rfl
  · intro hp
    cases d with
    | Unchanged => exact absurd rfl hne
    | Modified p t =>
      simp only [diffPath] at hp
      subst hp
      rfl
    | New p t =>
      simp only [diffPath] at hp
      subst hp
      rfl
    | Deleted p =>
      simp only [diffPath] at hp
      subst hp
      rfl

theorem escaped_placeholder_not_substituted_witness :
    scan (.Deleted "mock/path") ('\\' :: '$' :: bodyChars false .path ++ [])
      = (scan (.Deleted "mock/path") []).map (('$' :: bodyChars false .path) ++ ·)
    ∧ getCommand ["echo $path \\$path \\${path} ${path}"] (.Deleted "mock/path")
      = .built "echo mock/path $path ${path} mock/path" :=
  ⟨(escaped_placeholder_not_substituted (.Deleted "mock/path")
      (by decide)).1 false .path [],
   (escaped_placeholder_not_substituted (.Deleted "mock/path")
      (by decide)).2 rfl⟩

/-- C6 (amended): for every `Deleted` difference, an unescaped
`$mtime`/`${mtime}` placeholder that the closure processes — bare, or
preceded by a consumed character of the trim set `{'{', '}', ' ', '$'}` —
is left untouched verbatim in the built command; and building the command
does not fail provided every placeholder of the template is escaped or
digestible by the closure (`noPanic`).  A placeholder preceded by any
other character makes `get_command` panic, for every difference variant,
not only `Deleted`. -/
theorem deleted_mtime_verbatim (p : String) (cmd : List String) (b : Bool)
    (post : List Char) (c : Char) (hc : isTrimChar c = true) :
    (noPanic (joinCmd cmd).data = true →
      ∃ s, getCommand cmd (.Deleted p) = .built s)
    ∧ scan (.Deleted p) ('$' :: bodyChars b .mtime ++ post)
        = (scan (.Deleted p) post).map (('$' :: bodyChars b .mtime) ++ ·)
    ∧ scan (.Deleted p) (c :: '$' :: bodyChars b .mtime ++ post)
        = (scan (.Deleted p) post).map ((c :: '$' :: bodyChars b .mtime) ++ ·) := by
  have hbare : scan (.Deleted p) ('$' :: bodyChars b .mtime ++ post)
      = (scan (.Deleted p) post).map (('$' :: bodyChars b .mtime) ++ ·) := by
    simp only [scan, List.cons_append]
    rw [scanGo_step_bare (.Deleted p) (tryBody_bodyChars b .mtime post)]
    rfl
  refine ⟨?_, hbare, ?_⟩
  · intro hnp
    unfold getCommand
    rw [if_neg (by simp : (FSDifference.Deleted p) ≠ .Unchanged)]
    have hsome := scanGo_isSome_of_npGo (.Deleted p) (joinCmd cmd).data 0 hnp
    obtain ⟨out, hout⟩ := Option.isSome_iff_exists.mp hsome
    rw [show scan (.Deleted p) (joinCmd cmd).data = some out from hout]
    exact ⟨String.mk out, rfl⟩
  · simp only [scan, List.cons_append]
    rw [scanGo_step_trim (.Deleted p) (tryDollarVar_cons_bodyChars b .mtime post) hc]
    rfl

theorem deleted_mtime_verbatim_witness :
    (∃ s, getCommand ["echo"] (.Deleted "mock/path") = .built s)
    ∧ scan (.Deleted "mock/path") ('$' :: bodyChars false .mtime ++ [])
        = (scan (.Deleted "mock/path") []).map
            (('$' :: bodyChars false .mtime) ++ ·)
    ∧ scan (.Deleted "mock/path") (' ' :: '$' :: bodyChars false .mtime ++ [])
        = (scan (.Deleted "mock/path") []).map
            ((' ' :: '$' :: bodyChars false .mtime) ++ ·) :=
  have h := deleted_mtime_verbatim "mock/path" ["echo"] false [] ' ' (by decide)
  ⟨h.1 (by decide), h.2.1, h.2.2⟩

/-- C6 counterexample: with a `Deleted` difference, a template whose
`$mtime` is preceded by an ordinary character makes `get_command` panic —
building the command does fail. -/
theorem getCommand_deleted_panic_counterexample :
    getCommand ["x$mtime"] (.Deleted "mock/path") = .panicked := by
  decide

/-! ## Extended glob pattern expansion
(`ExtendedGlobPatternBuilder`, src/explorers/glob_explorer/extend.rs)

Patterns are represented as `List Char` internally (`String` at the API).
The `unwrap()`/`panic!` calls on the token stack are modelled as
`Except.error`.  The `depth` field is a `usize`; in the crate's default
release profile its arithmetic wraps on overflow, so `self.depth -= 1` on
an unmatched `}` at depth 0 silently wraps to `usize::MAX` (modelled by
`wrappingSub1`/`wrappingAdd1`) and parsing continues on the token stack as
it stands.  The recursion of `close_parenthesis` into
`from_pattern(&subpattern).build()` is expressed with a fuel parameter;
every recursive call works on a strictly shorter subpattern, so
`length + 1` fuel always suffices. -/

/-- `ExtendGlobToken` from extend.rs. -/
inductive ExtendGlobToken where
  | Literal (c : Char) : ExtendGlobToken
  | Subpatterns (subs : List (List Char)) : ExtendGlobToken
deriving DecidableEq, Repr

/-- The ways the builder can abort: `invalidState` models the
`unwrap()`/`panic!` calls on an inconsistent token stack; `outOfFuel`
models exhausting the recursion bound (never reached from the API). -/
inductive ExtendErr where
  | invalidState : ExtendErr
  | outOfFuel : ExtendErr
deriving DecidableEq, Repr

/-- `usize::MAX` on the 64-bit targets the crate ships for: `2^64 - 1`. -/
def usizeMax : Nat := 18446744073709551615

/-- Release-profile wrapping `usize` increment. -/
def wrappingAdd1 (n : Nat) : Nat := if n = usizeMax then 0 else n + 1

/-- Release-profile wrapping `usize` decrement (`0 - 1 = usize::MAX`). -/
def wrappingSub1 (n : Nat) : Nat := if n = 0 then usizeMax else n - 1

/-- `ExtendedGlobPatternBuilder` from extend.rs. -/
structure ExtendedGlobPatternBuilder where
  tokens : List ExtendGlobToken
  depth : Nat
  escaped : Bool
deriving Repr

/-- `subpatterns.last_mut().unwrap().push(c)`. -/
def pushLastString (subs : List (List Char)) (c : Char) :
    Except ExtendErr (List (List Char)) :=
  match subs with
  | [] => .error .invalidState
  | [s] => .ok [s ++ [c]]
  | s :: rest =>
    match pushLastString rest c with
    | .error e => .error e
    | .ok r => .ok (s :: r)

/-- `ExtendedGlobPatternBuilder::push_subpattern_character`: append `c` to
the last alternative of the last token, which must be `Subpatterns`. -/
def pushSubpatternCharacter (tokens : List ExtendGlobToken) (c : Char) :
    Except ExtendErr (List ExtendGlobToken) :=
  match tokens with
  | [] => .error .invalidState
  | [t] =>
    match t with
    | .Subpatterns subs =>
      match pushLastString subs c with
      | .error e => .error e
      | .ok subs' => .ok [.Subpatterns subs']
    | .Literal _ => .error .invalidState
  | t :: rest =>
    match pushSubpatternCharacter rest c with
    | .error e => .error e
    | .ok r => .ok (t :: r)

/-- `ExtendedGlobPatternBuilder::normal_character`. -/
def normalCharacter (st : ExtendedGlobPatternBuilder) (c : Char) :
    Except ExtendErr ExtendedGlobPatternBuilder :=
  if st.depth = 0 then .ok { st with tokens := st.tokens ++ [.Literal c] }
  else
    match pushSubpatternCharacter st.tokens c with
    | .error e => .error e
    | .ok tk => .ok { st with tokens := tk }

/-- `subpatterns.push("".to_owned())` on the last token (the `comma` case
at depth 1). -/
def pushNewAlternative (tokens : List ExtendGlobToken) :
    Except ExtendErr (List ExtendGlobToken) :=
  match tokens with
  | [] => .error .invalidState
  | [t] =>
    match t with
    | .Subpatterns subs => .ok [.Subpatterns (subs ++ [[]])]
    | .Literal _ => .error .invalidState
  | t :: rest =>
    match pushNewAlternative rest with
    | .error e => .error e
    | .ok r => .ok (t :: r)

/-- `ExtendedGlobPatternBuilder::comma`. -/
def comma (st : ExtendedGlobPatternBuilder) :
    Except ExtendErr ExtendedGlobPatternBuilder :=
  if st.depth = 0 then .ok { st with tokens := st.tokens ++ [.Literal ','] }
  else if st.depth = 1 then
    match pushNewAlternative st.tokens with
    | .error e => .error e
    | .ok tk => .ok { st with tokens := tk }
  else
    match pushSubpatternCharacter st.tokens ',' with
    | .error e => .error e
    | .ok tk => .ok { st with tokens := tk }

/-- `ExtendedGlobPatternBuilder::open_parenthesis` (`self.depth += 1`,
wrapping in release). -/
def openParenthesis (st : ExtendedGlobPatternBuilder) :
    Except ExtendErr ExtendedGlobPatternBuilder :=
  if wrappingAdd1 st.depth = 1 then
    .ok { st with depth := wrappingAdd1 st.depth,
                  tokens := st.tokens ++ [.Subpatterns [[]]] }
  else
    match pushSubpatternCharacter st.tokens '{' with
    | .error e => .error e
    | .ok tk => .ok { st with depth := wrappingAdd1 st.depth, tokens := tk }

/-- `self.tokens.pop()`. -/
def popLast (tokens : List ExtendGlobToken) :
    Option (ExtendGlobToken × List ExtendGlobToken) :=
  match tokens with
  | [] => none
  | [t] => some (t, [])
  | t :: rest => (popLast rest).map (fun x => (x.1, t :: x.2))

/-- The loop of `close_parenthesis`: recursively expand every collected
alternative and concatenate the results. -/
def expandSubs (rec : List Char → Except ExtendErr (List (List Char))) :
    List (List Char) → Except ExtendErr (List (List Char))
  | [] => .ok []
  | s :: rest =>
    match rec s with
    | .error e => .error e
    | .ok ex =>
      match expandSubs rec rest with
      | .error e => .error e
      | .ok es => .ok (ex ++ es)

/-- `ExtendedGlobPatternBuilder::close_parenthesis`.  `self.depth -= 1`
first (wrapping to `usize::MAX` on an unmatched `}` at depth 0 in the
release profile); reaching depth 0 closes the depth-1 group, popping its
`Subpatterns` token and recursively expanding each alternative through
`rec`; any other resulting depth stores the `}` in the current
subpattern. -/
def closeParenthesis (rec : List Char → Except ExtendErr (List (List Char)))
    (st : ExtendedGlobPatternBuilder) :
    Except ExtendErr ExtendedGlobPatternBuilder :=
  if wrappingSub1 st.depth = 0 then
    match popLast st.tokens with
    | none => .error .invalidState
    | some (.Literal _, _) => .error .invalidState
    | some (.Subpatterns subs, rest) =>
      match expandSubs rec subs with
      | .error e => .error e
      | .ok expanded =>
        .ok { st with depth := wrappingSub1 st.depth,
                      tokens := rest ++ [.Subpatterns expanded] }
  else
    match pushSubpatternCharacter st.tokens '}' with
    | .error e => .error e
    | .ok tk => .ok { st with depth := wrappingSub1 st.depth, tokens := tk }

/-- `ExtendedGlobPatternBuilder::character`. -/
def character (rec : List Char → Except ExtendErr (List (List Char)))
    (st : ExtendedGlobPatternBuilder) (c : Char) :
    Except ExtendErr ExtendedGlobPatternBuilder :=
  if st.escaped then normalCharacter { st with escaped := false } c
  else if c = '{' then openParenthesis st
  else if c = '}' then closeParenthesis rec st
  else if c = ',' then comma st
  else if c = '\\' then
    match normalCharacter st c with
    | .error e => .error e
    | .ok st' => .ok { st' with escaped := true }
  else normalCharacter st c

/-- The loop of `from_pattern`: feed every character to the builder. -/
def processChars (rec : List Char → Except ExtendErr (List (List Char))) :
    ExtendedGlobPatternBuilder → List Char →
    Except ExtendErr ExtendedGlobPatternBuilder
  | st, [] => .ok st
  | st, c :: cs =>
    match character rec st c with
    | .error e => .error e
    | .ok st' => processChars rec st' cs

/-- `ExtendedGlobPatternBuilder::build` before the `HashSet` collection:
fold the token stream over `vec![""]`, appending a literal to every
pattern in progress and taking the cartesian product with every
alternative set, in sequence order. -/
def buildStep (acc : List (List Char)) (t : ExtendGlobToken) : List (List Char) :=
  match t with
  | .Literal c => acc.map (fun p => p ++ [c])
  | .Subpatterns subs => acc.flatMap (fun p => subs.map (fun s => p ++ s))

def buildTokens (tokens : List ExtendGlobToken) : List (List Char) :=
  tokens.foldl buildStep [[]]

/-- `build`'s final `.into_iter().collect::<HashSet<String>>()`: the result
as a duplicate-free list. -/
def buildSet (tokens : List ExtendGlobToken) : List (List Char) :=
  (buildTokens tokens).dedup

/-- `from_pattern(pattern).build()` with an explicit recursion bound. -/
def extendFuel : Nat → List Char → Except ExtendErr (List (List Char))
  | 0, _ => .error .outOfFuel
  | n + 1, chars =>
    match processChars (extendFuel n) ⟨[], 0, false⟩ chars with
    | .error e => .error e
    | .ok st => .ok (buildSet st.tokens)

/-- The full expansion of an extended glob pattern into the set of basic
glob patterns (`ExtendedGlobPatternBuilder::from_pattern(p).build()`). -/
def extendGlobPattern (p : String) : Except ExtendErr (List String) :=
  (extendFuel (p.length + 1) p.data).map (List.map String.mk)

/-- The strings an individual token contributes to the cartesian product. -/
def tokenStrings : ExtendGlobToken → List (List Char)
  | .Literal c => [[c]]
  | .Subpatterns subs => subs

theorem mem_buildStep {acc : List (List Char)} {t : ExtendGlobToken}
    {r : List Char} :
    r ∈ buildStep acc t ↔ ∃ a ∈ acc, ∃ s ∈ tokenStrings t, r = a ++ s := by
  cases t with
  | Literal c =>
    simp only [buildStep, tokenStrings, List.mem_map, List.mem_singleton]
    constructor
    · rintro ⟨a, ha, rfl⟩
      exact ⟨a, ha, [c], rfl, rfl⟩
    · rintro ⟨a, ha, s, rfl, rfl⟩
      exact ⟨a, ha, rfl⟩
  | Subpatterns subs =>
    simp only [buildStep, tokenStrings, List.mem_flatMap, List.mem_map]
    constructor
    · rintro ⟨a, ha, s, hs, rfl⟩
      exact ⟨a, ha, s, hs, rfl⟩
    · rintro ⟨a, ha, s, hs, rfl⟩
      exact ⟨a, ha, s, hs, rfl⟩

theorem mem_buildFold (tokens : List ExtendGlobToken) :
    ∀ (acc : List (List Char)) (r : List Char),
      r ∈ tokens.foldl buildStep acc ↔
        ∃ a ∈ acc, ∃ picks,
          List.Forall₂ (fun t s => s ∈ tokenStrings t) tokens picks
          ∧ r = a ++ picks.flatten := by
  induction tokens with
  | nil =>
    intro acc r
    simp [List.forall₂_nil_left_iff]
  | cons t ts ih =>
    intro acc r
    rw [List.foldl_cons, ih (buildStep acc t) r]
    constructor
    · rintro ⟨a', ha', picks, hF, rfl⟩
      obtain ⟨a, ha, s, hs, rfl⟩ := mem_buildStep.mp ha'
      exact ⟨a, ha, s :: picks, List.Forall₂.cons hs hF, by
        simp [List.flatten_cons, List.append_assoc]⟩
    · rintro ⟨a, ha, picks, hF, rfl⟩
      obtain ⟨s, picks', hs, hF', rfl⟩ := List.forall₂_cons_left_iff.mp hF
      refine ⟨a ++ s, mem_buildStep.mpr ⟨a, ha, s, hs, rfl⟩, picks', hF', ?_⟩
      simp [List.flatten_cons, List.append_assoc]

/-- C7: the final assembly of `build` distributes the token stream as a
cartesian product in sequence order — a pattern is produced exactly when it
is the concatenation of one choice per token (the literal itself, or any
one alternative of a `Subpatterns` group) — and the result is returned as
a set (duplicate-free, membership unchanged); nested groups are expanded
recursively, as on the examples `{a,b}`, `{a,b}{1,2}` and `a{b,{c,d}}`. -/
theorem build_cartesian_product :
    (∀ (tokens : List ExtendGlobToken) (r : List Char),
      r ∈ buildTokens tokens ↔
        ∃ picks, List.Forall₂ (fun t s => s ∈ tokenStrings t) tokens picks
          ∧ r = picks.flatten)
    ∧ (∀ tokens : List ExtendGlobToken,
        (buildSet tokens).Nodup ∧ ∀ r, r ∈ buildSet tokens ↔ r ∈ buildTokens tokens)
    ∧ extendGlobPattern "{a,b}" = .ok ["a", "b"]
    ∧ extendGlobPattern "{a,b}{1,2}" = .ok ["a1", "a2", "b1", "b2"]
    ∧ extendGlobPattern "a{b,{c,d}}" = .ok ["ab", "ac", "ad"] := by
  refine ⟨?_, ?_, rfl, rfl, rfl⟩
  · intro tokens r
    rw [buildTokens, mem_buildFold tokens [[]] r]
    simp
  · intro tokens
    exact ⟨List.nodup_dedup _, fun r => List.mem_dedup⟩

/-- A pattern (resumed with escape flag `esc`) contains no unescaped `{`
or `}`: it is a valid extended pattern without brace-alternation groups. -/
def noUnescapedBrace (esc : Bool) : List Char → Bool
  | [] => true
  | c :: cs =>
    if esc then noUnescapedBrace false cs
    else if c = '{' then false
    else if c = '}' then false
    else noUnescapedBrace (c = '\\') cs

/-- A pattern (resumed with escape flag `esc` at nesting depth `depth`)
contains an unescaped `}` that would decrement the nesting depth below 0. -/
def hasUnmatchedClose (esc : Bool) (depth : Nat) : List Char → Bool
  | [] => false
  | c :: cs =>
    if esc then hasUnmatchedClose false depth cs
    else if c = '{' then hasUnmatchedClose false (depth + 1) cs
    else if c = '}' then
      (if depth = 0 then true else hasUnmatchedClose false (depth - 1) cs)
    else if c = '\\' then hasUnmatchedClose true depth cs
    else hasUnmatchedClose false depth cs

theorem processChars_literals
    (rec : List Char → Except ExtendErr (List (List Char))) :
    ∀ (cs : List Char) (tk : List ExtendGlobToken) (esc : Bool),
      noUnescapedBrace esc cs = true →
      ∃ esc', processChars rec ⟨tk, 0, esc⟩ cs =
        .ok ⟨tk ++ cs.map .Literal, 0, esc'⟩ := by
  intro cs
  induction cs with
  | nil =>
    intro tk esc _
    exact ⟨esc, by simp [processChars]⟩
  | cons c cs ih =>
    intro tk esc hnb
    cases esc with
    | true =>
      have hnb' : noUnescapedBrace false cs = true := by
        simpa [noUnescapedBrace] using hnb
      have hchar : character rec ⟨tk, 0, true⟩ c
          = .ok ⟨tk ++ [.Literal c], 0, false⟩ := by
        simp [character, normalCharacter]
      obtain ⟨esc', hrun⟩ := ih (tk ++ [.Literal c]) false hnb'
      refine ⟨esc', ?_⟩
      simp only [processChars, hchar, hrun]
      simp
    | false =>
      have hc1 : c ≠ '{' := by
        intro hc; subst hc; simp [noUnescapedBrace] at hnb
      have hc2 : c ≠ '}' := by
        intro hc; subst hc; simp [noUnescapedBrace] at hnb
      have hnb' : noUnescapedBrace (c = '\\') cs = true := by
        simpa [noUnescapedBrace, if_neg hc1, if_neg hc2] using hnb
      by_cases hc3 : c = '\\'
      · subst hc3
        have hchar : character rec ⟨tk, 0, false⟩ '\\'
            = .ok ⟨tk ++ [.Literal '\\'], 0, true⟩ := by
          simp [character, normalCharacter]
        have hnb2 : noUnescapedBrace true cs = true := by simpa using hnb'
        obtain ⟨esc', hrun⟩ := ih (tk ++ [.Literal '\\']) true hnb2
        refine ⟨esc', ?_⟩
        simp only [processChars, hchar, hrun]
        simp
      · have hnb2 : noUnescapedBrace false cs = true := by
          simpa [hc3] using hnb'
        have hchar : character rec ⟨tk, 0, false⟩ c
            = .ok ⟨tk ++ [.Literal c], 0, false⟩ := by
          by_cases hc4 : c = ','
          · subst hc4
            simp [character, comma]
          · simp [character, if_neg hc1, if_neg hc2, if_neg hc3, if_neg hc4,
              normalCharacter]
        obtain ⟨esc', hrun⟩ := ih (tk ++ [.Literal c]) false hnb2
        refine ⟨esc', ?_⟩
        simp only [processChars, hchar, hrun]
        simp

theorem buildFold_literals :
    ∀ (cs a : List Char),
      List.foldl buildStep [a] (cs.map .Literal) = [a ++ cs] := by
  intro cs
  induction cs with
  | nil => intro a; simp
  | cons c cs ih =>
    intro a
    have hstep : buildStep [a] (.Literal c) = [a ++ [c]] := by
      simp [buildStep]
    simp only [List.map_cons, List.foldl_cons, hstep, ih]
    simp

/-- C8: for every valid extended pattern containing no (unescaped)
brace-alternation groups, expansion yields exactly the singleton set
holding the input string unchanged, backslash escapes included. -/
theorem extendGlob_no_brace_singleton (p : String)
    (h : noUnescapedBrace false p.data = true) :
    extendGlobPattern p = .ok [p] := by
  obtain ⟨esc', hrun⟩ := processChars_literals (extendFuel p.length) p.data [] false h
  unfold extendGlobPattern
  rw [show p.length + 1 = p.length + 1 from rfl]
  simp only [extendFuel, hrun]
  have hbuild : buildSet (([] : List ExtendGlobToken) ++ p.data.map .Literal)
      = [p.data] := by
    simp only [List.nil_append, buildSet, buildTokens, buildFold_literals p.data []]
    simp [List.dedup]
  rw [hbuild]
  rfl

theorem extendGlob_no_brace_singleton_witness :
    extendGlobPattern "escaped \\\x7b is OK" = .ok ["escaped \\\x7b is OK"] :=
  extendGlob_no_brace_singleton "escaped \\\x7b is OK" (by decide)

/-- A pattern (resumed with escape flag `esc`) whose first unescaped brace
is a closing `}`: the builder meets that `}` at depth 0 with a token stack
holding only literals. -/
def firstBraceClose (esc : Bool) : List Char → Bool
  | [] => false
  | c :: cs =>
    if esc then firstBraceClose false cs
    else if c = '{' then false
    else if c = '}' then true
    else firstBraceClose (c = '\\') cs

theorem pushSubpatternCharacter_all_literal {tokens : List ExtendGlobToken}
    (c : Char) (h : ∀ t ∈ tokens, ∃ ch, t = ExtendGlobToken.Literal ch) :
    pushSubpatternCharacter tokens c = .error .invalidState := by
  induction tokens with
  | nil => rfl
  | cons t rest ih =>
    obtain ⟨ch, hch⟩ := h t (List.mem_cons_self _ _)
    subst hch
    cases rest with
    | nil => rfl
    | cons t2 r2 =>
      have hrec := ih (fun t ht => h t (List.mem_cons_of_mem _ ht))
      simp [pushSubpatternCharacter, hrec]

theorem processChars_firstClose_error
    (rec : List Char → Except ExtendErr (List (List Char))) :
    ∀ (cs : List Char) (tk : List ExtendGlobToken) (esc : Bool),
      firstBraceClose esc cs = true →
      (∀ t ∈ tk, ∃ ch, t = ExtendGlobToken.Literal ch) →
      ∃ err, processChars rec ⟨tk, 0, esc⟩ cs = .error err := by
  intro cs
  induction cs with
  | nil => intro tk esc h _; simp [firstBraceClose] at h
  | cons c cs ih =>
    intro tk esc h hlit
    have hlit' : ∀ t ∈ tk ++ [ExtendGlobToken.Literal c], ∃ ch,
        t = ExtendGlobToken.Literal ch := by
      intro t ht
      rcases List.mem_append.mp ht with ht | ht
      · exact hlit t ht
      · exact ⟨c, by simpa using ht⟩
    cases esc with
    | true =>
      have h' : firstBraceClose false cs = true := by
        simpa [firstBraceClose] using h
      have hchar : character rec ⟨tk, 0, true⟩ c
          = .ok ⟨tk ++ [.Literal c], 0, false⟩ := by
        simp [character, normalCharacter]
      obtain ⟨err, hrun⟩ := ih (tk ++ [.Literal c]) false h' hlit'
      exact ⟨err, by simp [processChars, hchar, hrun]⟩
    | false =>
      by_cases hc1 : c = '{'
      · exfalso; subst hc1; simp [firstBraceClose] at h
      by_cases hc2 : c = '}'
      · subst hc2
        have hchar : character rec ⟨tk, 0, false⟩ '}'
            = .error .invalidState := by
          have hpush := pushSubpatternCharacter_all_literal '}' hlit
          have hwrap : wrappingSub1 (0 : Nat) ≠ 0 := by
            simp [wrappingSub1, usizeMax]
          simp [character, closeParenthesis, hwrap, hpush]
        exact ⟨.invalidState, by simp [processChars, hchar]⟩
      · have h' : firstBraceClose (c = '\\') cs = true := by
          simpa [firstBraceClose, hc1, hc2] using h
        by_cases hc3 : c = '\\'
        · subst hc3
          have hchar : character rec ⟨tk, 0, false⟩ '\\'
              = .ok ⟨tk ++ [.Literal '\\'], 0, true⟩ := by
            simp [character, normalCharacter]
          have h2 : firstBraceClose true cs = true := by simpa using h'
          obtain ⟨err, hrun⟩ := ih (tk ++ [.Literal '\\']) true h2 hlit'
          exact ⟨err, by simp [processChars, hchar, hrun]⟩
        · have h2 : firstBraceClose false cs = true := by simpa [hc3] using h'
          have hchar : character rec ⟨tk, 0, false⟩ c
              = .ok ⟨tk ++ [.Literal c], 0, false⟩ := by
            by_cases hc4 : c = ','
            · subst hc4
              simp [character, comma]
            · simp [character, hc1, hc2, hc3, hc4, normalCharacter]
          obtain ⟨err, hrun⟩ := ih (tk ++ [.Literal c]) false h2 hlit'
          exact ⟨err, by simp [processChars, hchar, hrun]⟩

/-- C9 (amended): in the shipped (release) build, an unmatched `}` is not
guaranteed to abort construction.  When the unmatched `}` is the first
unescaped brace of the pattern, the wrapped depth sends the `}` to
`push_subpattern_character` over a token stack holding no subpattern
group, and construction fails with the token-stack panic.  But when the
unmatched `}` immediately follows a completed alternation group, the
wrapped depth lets it be silently absorbed into that group's expansions
and construction succeeds: `expand("{a}}") = {"a}"}`.  (Only under
debug-profile checked arithmetic does the decrement itself panic, making
construction always fail on malformed nesting.) -/
theorem extendGlob_malformed_close_behavior :
    (∀ p : String, firstBraceClose false p.data = true →
      ∃ err, extendGlobPattern p = .error err)
    ∧ extendGlobPattern "{a}\x7d" = .ok ["a\x7d"] := by
  constructor
  · intro p h
    obtain ⟨err, hrun⟩ := processChars_firstClose_error (extendFuel p.length)
      p.data [] false h (by intro t ht; cases ht)
    refine ⟨err, ?_⟩
    unfold extendGlobPattern
    simp only [extendFuel, hrun]
    rfl
  · rfl

theorem extendGlob_malformed_close_behavior_witness :
    ∃ err, extendGlobPattern "\x7d" = .error err :=
  extendGlob_malformed_close_behavior.1 "\x7d" (by decide)

/-- C9 counterexample: `"{a}}"` contains an unescaped `}` that would
decrement the nesting depth below 0 (it is malformed in the claim's
sense), yet in the release build construction succeeds, returning the
basic pattern set `{"a}"}` — the wrapped `usize` depth silently absorbs
the stray `}` into the completed group. -/
theorem extendGlob_wrap_accepts_counterexample :
    hasUnmatchedClose false 0 ("{a}\x7d" : String).data = true
    ∧ extendGlobPattern "{a}\x7d" = .ok ["a\x7d"] :=
  ⟨by decide, rfl⟩

/-! ## Constructor validation (`JFSWatch::new`, src/jfswatch.rs lines 57-84)

The `f32` seconds arguments are modelled as exact rationals (every finite
`f32` is a rational, and the checks `interval <= 0.0` / `sleep <= 0.0`
agree with the rational order on finite values; the non-finite values NaN
and ±∞ are outside the model).  `Duration::from_secs_f32` panics when the
value is negative or overflows `Duration`; for `f32`-representable values
the overflow threshold is exactly `2^64` seconds.  A panic is not a
returned error, so it is a distinct `NewResult` outcome. -/

/-- Model of `Duration::from_secs_f32`: `none` models its panic. -/
def durationFromSecsF32 (q : ℚ) : Option ℚ :=
  if 0 ≤ q ∧ q < 2 ^ 64 then some q else none

/-- The `JFSWatch` struct (the constant `substitution_pattern` regex field
is the fixed pattern embedded by `scan` above and carries no data). -/
structure JFSWatch (E : Type) where
  explorers : List E
  interval : ℚ
  sleep : ℚ
  cmd : List String
deriving DecidableEq

/-- The observable outcome of `JFSWatch::new`: `Ok`, `Err(msg)`, or a
panic raised inside the constructor (by `Duration::from_secs_f32`). -/
inductive NewResult (E : Type) where
  | ok (w : JFSWatch E) : NewResult E
  | err (msg : String) : NewResult E
  | panicked : NewResult E
deriving DecidableEq

/-- `JFSWatch::new(explorers, interval, sleep, cmd)`: the four validation
checks in source order, then the two `Duration::from_secs_f32` conversions
performed while building the struct. -/
def JFSWatch.new (E : Type) (explorers : List E) (interval sleep : ℚ)
    (cmd : List String) : NewResult E :=
  if cmd.length = 0 then .err "No command was given"
  else if interval ≤ 0 then .err "Interval must be a positive number of seconds"
  else if sleep ≤ 0 then .err "Sleep must be a positive number of seconds"
  else if explorers.length = 0 then .err "Empty path discovery list"
  else
    match durationFromSecsF32 interval, durationFromSecsF32 sleep with
    | some i, some s => .ok ⟨explorers, i, s, cmd⟩
    | _, _ => .panicked

/-- C10 counterexample: a configuration with non-empty command, a positive
interval (`2^100` seconds, an exactly representable `f32`), positive sleep
and one explorer, on which construction does not succeed — it panics in
`Duration::from_secs_f32` — contradicting the claim that every such
configuration constructs successfully. -/
theorem new_overflow_panics_counterexample :
    JFSWatch.new Unit [()] (2 ^ 100) 1 ["echo"] = .panicked
    ∧ (0 : ℚ) < 2 ^ 100
    ∧ ∀ w, JFSWatch.new Unit [()] (2 ^ 100) 1 ["echo"] ≠ .ok w := by
  have hd1 : durationFromSecsF32 (2 ^ 100) = none := by
    rw [durationFromSecsF32, if_neg]
    intro hcon
    have := hcon.2
    norm_num at this
  have h : JFSWatch.new Unit [()] (2 ^ 100) 1 ["echo"] = .panicked := by
    rw [JFSWatch.new, if_neg (by decide), if_neg (by norm_num),
      if_neg (by norm_num), if_neg (by decide), hd1]
  exact ⟨h, by norm_num, fun w hw => by rw [h] at hw; cases hw⟩

/-- C10 (amended): `JFSWatch::new` returns `Err` if and only if the
configuration is invalid — empty command, non-positive interval, non-
positive sleep, or no explorers — and this happens before any watching;
and for every configuration with non-empty command, at least one explorer,
and positive interval and sleep values small enough to convert to a
`Duration` (below `2^64` seconds; in particular finite), construction
succeeds.  A positive interval or sleep at or above `2^64` seconds (or a
non-finite one) instead panics inside `Duration::from_secs_f32`. -/
theorem new_validation (E : Type) (explorers : List E) (interval sleep : ℚ)
    (cmd : List String) :
    ((∃ msg, JFSWatch.new E explorers interval sleep cmd = .err msg) ↔
      (cmd = [] ∨ interval ≤ 0 ∨ sleep ≤ 0 ∨ explorers = []))
    ∧ (cmd ≠ [] → 0 < interval → 0 < sleep → explorers ≠ [] →
        interval < 2 ^ 64 → sleep < 2 ^ 64 →
        ∃ w, JFSWatch.new E explorers interval sleep cmd = .ok w) := by
  constructor
  · constructor
    · rintro ⟨msg, hmsg⟩
      rw [JFSWatch.new] at hmsg
      by_cases h1 : cmd.length = 0
      · exact Or.inl (List.length_eq_zero.mp h1)
      rw [if_neg h1] at hmsg
      by_cases h2 : interval ≤ 0
      · exact Or.inr (Or.inl h2)
      rw [if_neg h2] at hmsg
      by_cases h3 : sleep ≤ 0
      · exact Or.inr (Or.inr (Or.inl h3))
      rw [if_neg h3] at hmsg
      by_cases h4 : explorers.length = 0
      · exact Or.inr (Or.inr (Or.inr (List.length_eq_zero.mp h4)))
      rw [if_neg h4] at hmsg
      split at hmsg
      · cases hmsg
      · cases hmsg
    · intro hinv
      by_cases h1 : cmd.length = 0
      · exact ⟨_, by rw [JFSWatch.new, if_pos h1]⟩
      by_cases h2 : interval ≤ 0
      · exact ⟨_, by rw [JFSWatch.new, if_neg h1, if_pos h2]⟩
      by_cases h3 : sleep ≤ 0
      · exact ⟨_, by rw [JFSWatch.new, if_neg h1, if_neg h2, if_pos h3]⟩
      by_cases h4 : explorers.length = 0
      · exact ⟨_, by rw [JFSWatch.new, if_neg h1, if_neg h2, if_neg h3, if_pos h4]⟩
      exfalso
      rcases hinv with h | h | h | h
      · exact h1 (by simp [h])
      · exact h2 h
      · exact h3 h
      · exact h4 (by simp [h])
  · intro hcmd hint hsl hexp hib hsb
    refine ⟨⟨explorers, interval, sleep, cmd⟩, ?_⟩
    rw [JFSWatch.new,
      if_neg (by simpa [List.length_eq_zero] using hcmd),
      if_neg (not_le.mpr hint), if_neg (not_le.mpr hsl),
      if_neg (by simpa [List.length_eq_zero] using hexp),
      durationFromSecsF32, if_pos ⟨le_of_lt hint, hib⟩,
      durationFromSecsF32, if_pos ⟨le_of_lt hsl, hsb⟩]

theorem new_validation_witness :
    ∃ w, JFSWatch.new Unit [()] 1 1 ["echo"] = .ok w :=
  (new_validation Unit [()] 1 1 ["echo"]).2 (by decide) (by norm_num)
    (by norm_num) (by decide) (by norm_num) (by norm_num)

end JFSWatchModel
